import Mathlib

/-!
# Stilts template grammar: regions delimited by `{%` and `%}`

A verification development for `tooling/tree-sitter-stilts/grammar.js`

    source_file:  repeat(choice($.expr, $.text))
    expr:         seq('{%', optional($.expr_content), '%}')
    expr_content: /([^%]|[%][^}])*/
    text:         /([^{]|[{][^%])*/

and, as a sibling, the highlight.js mode of `tooling/highlightjs/stiltshtml.js`
(`begin: /{%/, end: /%}/`).

Modelling decisions.
* A document is a `List Char`; the lexer works on characters and every offset
  of a node is a byte offset into the UTF-8 encoding (`byteLen`).
* The regular expressions are kept as syntax (`Rx`) and run by derivatives.
* `grammar.js` has no `extras` key, so the default `extras: [/\s/]` applies:
  the generated lexer runs every terminal behind any number of white space
  characters (`separated`).  In the two parse states where white space can
  stand at the start of a token (before a region, and right after `{%`) a
  pattern is valid that consumes white space itself, so the lexer advances
  over it inside the token: the token, and the node made of it, begins at the
  current offset.
* In every parse state the lexer returns the longest match among the terminals
  that are valid in that state, the empty match included; a string literal
  wins a tie against a pattern.
* An empty `text` token leaves the parser in the same state at the same offset:
  it is shifted again and again and the parser never returns.  `source_file`
  then uses up any amount of fuel.
* An `expr` whose `'%}'` is not found has been read to the end of the document;
  the recovery of the runtime goes back to the state before the `{%` and wraps
  all that follows in one ERROR node (`Node.error`).
* Documents are written as string literals in which `\x7b` and `\x7d` stand
  for the two braces; each statement names its document in plain text.
-/

namespace Stilts

/-! ## Regular expressions -/

/-- Syntax of the regular expressions used by the grammar. -/
inductive Rx where
  | fail : Rx
  | eps : Rx
  | cls : (Char → Bool) → Rx
  | seq : Rx → Rx → Rx
  | alt : Rx → Rx → Rx
  | star : Rx → Rx

/-- The one-character class `[c]`. -/
def isChar (c : Char) : Rx := Rx.cls (fun x => x == c)

/-- The negated class `[^c]`. -/
def notChar (c : Char) : Rx := Rx.cls (fun x => x != c)

/-- Does the expression match the empty string. -/
def nullable : Rx → Bool
  | .fail => false
  | .eps => true
  | .cls _ => false
  | .seq a b => nullable a && nullable b
  | .alt a b => nullable a || nullable b
  | .star _ => true

/-- Derivative of an expression by one character. -/
def deriv (c : Char) : Rx → Rx
  | .fail => .fail
  | .eps => .fail
  | .cls p => if p c then .eps else .fail
  | .seq a b => if nullable a then .alt (.seq (deriv c a) b) (deriv c b) else .seq (deriv c a) b
  | .alt a b => .alt (deriv c a) (deriv c b)
  | .star a => .seq (deriv c a) (.star a)

/-- Does the expression match the whole string. -/
def accepts (r : Rx) : List Char → Bool
  | [] => nullable r
  | c :: cs => accepts (deriv c r) cs

/-- Length of the longest prefix of the input matched by the expression,
if some prefix (possibly the empty one) is matched. -/
def longest (r : Rx) : List Char → Option Nat
  | [] => if nullable r then some 0 else none
  | c :: cs =>
    match longest (deriv c r) cs with
    | some n => some (n + 1)
    | none => if nullable r then some 0 else none

/-! ## The grammar's tokens -/

/-- Token `'{%'`. -/
def delimOpen : Rx := .seq (isChar '{') (isChar '%')

/-- Token `'%}'`. -/
def delimClose : Rx := .seq (isChar '%') (isChar '}')

/-- Rule `expr_content: /([^%]|[%][^}])*/`. -/
def expr_content : Rx :=
  .star (.alt (notChar '%') (.seq (isChar '%') (notChar '}')))

/-- Rule `text: /([^{]|[{][^%])*/`. -/
def text : Rx :=
  .star (.alt (notChar '{') (.seq (isChar '{') (notChar '%')))

/-- The class `\s` of the default `extras`: space, tab, line feed, carriage
return, vertical tab and form feed. -/
def isSpace (c : Char) : Bool :=
  c == ' ' || c == '\t' || c == '\n' || c == '\r' || c == '\x0b' || c == '\x0c'

/-- The default `extras: [/\s/]` of a grammar that declares none. -/
def extras : Rx := .cls isSpace

/-- A terminal as the generated lexer runs it: any number of separators, then
the terminal itself. -/
def separated (r : Rx) : Rx := .seq (.star extras) r

/-- The four terminals of the grammar. -/
inductive Tok where
  | dOpen
  | dClose
  | content
  | text
  deriving DecidableEq, Repr

/-- The expression of a terminal. -/
def tokenRx : Tok → Rx
  | .dOpen => delimOpen
  | .dClose => delimClose
  | .content => expr_content
  | .text => text

/-- The lexer in a parse state whose valid terminals are `valid`: the longest
match, which may be empty, of a terminal behind its separators; on a tie the
terminal listed first wins. The result is the terminal and the number of
characters read. -/
def lex : List Tok → List Char → Option (Tok × Nat)
  | [], _ => none
  | t :: ts, s =>
    match longest (separated (tokenRx t)) s, lex ts s with
    | some n, some (u, m) => if n < m then some (u, m) else some (t, n)
    | some n, none => some (t, n)
    | none, r => r

/-- Number of bytes of the UTF-8 encoding of a string. -/
def byteLen : List Char → Nat
  | [] => 0
  | c :: cs => c.utf8Size + byteLen cs

/-! ## The parser -/

/-- A region of the document, with byte offsets: a `text` node, an `expr` node
(delimiters included in its range) with the range of its `expr_content` child,
if any, or an ERROR node. -/
inductive Node where
  | text (start stop : Nat)
  | expr (start stop : Nat) (content : Option (Nat × Nat))
  | error (start stop : Nat)
  deriving DecidableEq, Repr

/-- Start offset of a node. -/
def Node.start : Node → Nat
  | .text a _ => a
  | .expr a _ _ => a
  | .error a _ => a

/-- End offset (exclusive) of a node. -/
def Node.stop : Node → Nat
  | .text _ b => b
  | .expr _ b _ => b
  | .error _ b => b

/-- Result of running the parser with a given amount of fuel. -/
inductive Outcome where
  | tree (nodes : List Node)
  | outOfFuel
  deriving DecidableEq, Repr

/-- Prepend a node to a tree. -/
def Outcome.cons (n : Node) : Outcome → Outcome
  | .tree ns => .tree (n :: ns)
  | .outOfFuel => .outOfFuel

/-- Rule `expr: seq('{%', optional($.expr_content), '%}')` after its `'{%'`,
which began at byte `start`, has been shifted; `s` is the input after the
`'{%'`, at byte `pos`. Returns the node and the number of characters of `s`
it read, or nothing when the `'%}'` is not found. -/
def expr (start pos : Nat) (s : List Char) : Option (Node × Nat) :=
  match lex [.dClose, .content] s with
  | some (.dClose, n) => some (.expr start (pos + byteLen (s.take n)) none, n)
  | some (.content, n) =>
    match lex [.dClose] (s.drop n) with
    | some (.dClose, m) =>
      some (.expr start (pos + byteLen (s.take (n + m)))
        (some (pos, pos + byteLen (s.take n))), n + m)
    | _ => none
  | _ => none

/-- Rule `source_file: repeat(choice($.expr, $.text))` from byte `pos`, where
`s` is the remaining input. An `expr` that cannot be completed becomes an ERROR
node from its `{%` to the end of the document. -/
def source_file : Nat → Nat → List Char → Outcome
  | 0, _, _ => .outOfFuel
  | fuel + 1, pos, s =>
    match s with
    | [] => .tree []
    | _ :: _ =>
      match lex [.dOpen, .text] s with
      | some (.text, n) =>
        (source_file fuel (pos + byteLen (s.take n)) (s.drop n)).cons
          (.text pos (pos + byteLen (s.take n)))
      | some (.dOpen, n) =>
        match expr pos (pos + byteLen (s.take n)) (s.drop n) with
        | some (node, k) =>
          (source_file fuel (pos + byteLen (s.take (n + k))) (s.drop (n + k))).cons node
        | none => .tree [.error pos (pos + byteLen s)]
      | _ => .tree [.error pos (pos + byteLen s)]

/-- Parse a whole document. A run that returns reads at least one character in
every round, so `length + 1` rounds suffice for it. -/
def parse (doc : List Char) : Outcome :=
  source_file (doc.length + 1) 0 doc

/-! ## Auxiliary definitions used in the statements -/

/-- Deterministic scan for a pattern of the shape `([^a]|[a][^b])*`: a
character other than `a` is consumed alone, an `a` is consumed together with
the next character, which must exist and differ from `b`. -/
def pairScan (a b : Char) : List Char → Bool
  | [] => true
  | [c] => c != a
  | c :: d :: t => if c == a then (d != b && pairScan a b t) else pairScan a b (d :: t)

/-- The nodes tile the bytes from `a` to `b`: the first starts at `a`, each one
ends where the next starts, and the last ends at `b`. -/
def Covers : Nat → List Node → Nat → Prop
  | a, [], b => a = b
  | a, n :: ns, b => n.start = a ∧ n.start ≤ n.stop ∧ Covers n.stop ns b

/-- The string `s` has a maximal run of `k` consecutive `%` between `pre` and
`post`: the run cannot be extended to the left or to the right. -/
def MaxRun (s pre : List Char) (k : Nat) (post : List Char) : Prop :=
  s = pre ++ List.replicate k '%' ++ post ∧ 0 < k ∧
    pre.getLast? ≠ some '%' ∧ post.head? ≠ some '%'

/-- Every maximal run of `%` of odd length is immediately followed by a
character other than `}` (so it is not at the end of the string). -/
def OddRunsGuarded (s : List Char) : Prop :=
  ∀ pre k post, MaxRun s pre k post → k % 2 = 1 →
    ∃ d rest, post = d :: rest ∧ d ≠ '}'

/-! ## The highlight.js mode -/

/-- Offset of the first occurrence of the two characters `a b` in the input. -/
def findPair (a b : Char) : List Char → Option Nat
  | [] => none
  | [_] => none
  | c :: d :: t =>
    if c == a && d == b then some 0 else (findPair a b (d :: t)).map (· + 1)

/-- The first region of scope `expression` of the highlight.js mode
(`begin: /{%/, end: /%}/`): it begins at the first `{%` and ends with the first
`%}` after it, or at the end of the document when there is none. -/
def hljsExpression (doc : List Char) : Option (Nat × Nat) :=
  match findPair '{' '%' doc with
  | none => none
  | some i =>
    match findPair '%' '}' (doc.drop (i + 2)) with
    | some j => some (i, i + 2 + j + 2)
    | none => some (i, doc.length)

/-! ## Derivative matching: algebraic laws -/

theorem accepts_fail (s : List Char) : accepts .fail s = false := by
  induction s with
  | nil => rfl
  | cons c cs ih => simpa [accepts, deriv] using ih

theorem accepts_eps (s : List Char) : accepts .eps s = s.isEmpty := by
  cases s with
  | nil => rfl
  | cons c cs => simp [accepts, deriv, accepts_fail]

theorem accepts_cls (p : Char → Bool) (s : List Char) :
    accepts (.cls p) s = match s with
      | [c] => p c
      | _ => false := by
  match s with
  | [] => rfl
  | [c] => by_cases h : p c <;> simp [accepts, deriv, h, nullable]
  | c :: d :: t => by_cases h : p c <;> simp [accepts, deriv, h, accepts_fail]

theorem accepts_alt (a b : Rx) (s : List Char) :
    accepts (.alt a b) s = (accepts a s || accepts b s) := by
  induction s generalizing a b with
  | nil => rfl
  | cons c cs ih => simp [accepts, deriv, ih]

theorem accepts_seq_fail (b : Rx) (s : List Char) : accepts (.seq .fail b) s = false := by
  induction s with
  | nil => rfl
  | cons c cs ih => simpa [accepts, deriv, nullable] using ih

theorem accepts_seq_eps (b : Rx) (s : List Char) : accepts (.seq .eps b) s = accepts b s := by
  cases s with
  | nil => simp [accepts, nullable]
  | cons c cs => simp [accepts, deriv, nullable, accepts_alt, accepts_seq_fail]

theorem accepts_seq_congr (a a' b : Rx) (h : ∀ s, accepts a s = accepts a' s) (s : List Char) :
    accepts (.seq a b) s = accepts (.seq a' b) s := by
  induction s generalizing a a' with
  | nil =>
    have h0 : nullable a = nullable a' := h []
    simp [accepts, nullable, h0]
  | cons c cs ih =>
    have h0 : nullable a = nullable a' := h []
    have hd : ∀ s, accepts (deriv c a) s = accepts (deriv c a') s := fun s => h (c :: s)
    simp only [accepts, deriv, h0]
    split
    · rw [accepts_alt, accepts_alt, ih _ _ hd]
    · exact ih _ _ hd

theorem accepts_seq_alt (a b r : Rx) (s : List Char) :
    accepts (.seq (.alt a b) r) s = (accepts (.seq a r) s || accepts (.seq b r) s) := by
  induction s generalizing a b with
  | nil =>
    simp only [accepts, nullable]
    cases nullable a <;> cases nullable b <;> cases nullable r <;> rfl
  | cons c cs ih =>
    simp only [accepts, deriv, nullable]
    cases ha : nullable a <;> cases hb : nullable b <;>
      simp [accepts_alt, ih, Bool.or_assoc, Bool.or_comm, Bool.or_left_comm]

theorem accepts_seq_cls (p : Char → Bool) (b : Rx) (s : List Char) :
    accepts (.seq (.cls p) b) s = match s with
      | [] => false
      | c :: t => (p c && accepts b t) := by
  cases s with
  | nil => rfl
  | cons c t =>
    by_cases h : p c <;> simp [accepts, deriv, nullable, h, accepts_seq_eps, accepts_seq_fail]

/-- A two-character literal matches exactly that string. -/
theorem accepts_literal (a b : Char) (s : List Char) :
    accepts (.seq (isChar a) (isChar b)) s = decide (s = [a, b]) := by
  unfold isChar
  rw [accepts_seq_cls]
  match s with
  | [] => simp
  | [c] => simp [accepts_cls]
  | [c, d] => by_cases h1 : c = a <;> by_cases h2 : d = b <;> simp [accepts_cls, h1, h2]
  | c :: d :: e :: t => simp [accepts_cls]

/-- One unfolding of a pattern `([^a]|[a][^b])*` on a non-empty input. -/
theorem accepts_pairStar_cons (a b c : Char) (s : List Char) :
    accepts (.star (.alt (notChar a) (.seq (isChar a) (notChar b)))) (c :: s) =
      if c == a then
        (match s with
          | [] => false
          | d :: t => (d != b &&
              accepts (.star (.alt (notChar a) (.seq (isChar a) (notChar b)))) t))
      else accepts (.star (.alt (notChar a) (.seq (isChar a) (notChar b)))) s := by
  have hstep : accepts (.star (.alt (notChar a) (.seq (isChar a) (notChar b)))) (c :: s) =
      accepts (.seq (.alt (deriv c (notChar a)) (deriv c (.seq (isChar a) (notChar b))))
        (.star (.alt (notChar a) (.seq (isChar a) (notChar b))))) s := rfl
  rw [hstep, accepts_seq_alt]
  by_cases h : c = a
  · subst h
    have h1 : deriv c (notChar c) = .fail := by simp [deriv, notChar]
    have h2 : deriv c (.seq (isChar c) (notChar b)) = .seq .eps (notChar b) := by
      simp [deriv, isChar, nullable]
    rw [h1, h2, accepts_seq_fail,
      accepts_seq_congr _ (notChar b) _ (fun t => accepts_seq_eps (notChar b) t)]
    unfold notChar
    rw [accepts_seq_cls]
    simp
  · have h1 : deriv c (notChar a) = .eps := by simp [deriv, notChar, h]
    have h2 : deriv c (.seq (isChar a) (notChar b)) = .seq .fail (notChar b) := by
      simp [deriv, isChar, nullable, h]
    rw [h1, h2, accepts_seq_eps,
      accepts_seq_congr _ .fail _ (fun t => by rw [accepts_seq_fail, accepts_fail]),
      accepts_seq_fail]
    simp [h]

/-- A pattern `([^a]|[a][^b])*` accepts exactly what the pair scan accepts. -/
theorem accepts_pairStar (a b : Char) (s : List Char) :
    accepts (.star (.alt (notChar a) (.seq (isChar a) (notChar b)))) s = pairScan a b s := by
  induction s using pairScan.induct a b with
  | case1 => rfl
  | case2 c =>
    rw [accepts_pairStar_cons]
    by_cases h : c = a <;> simp [h, pairScan, accepts, nullable]
  | case3 c d t hc ih =>
    rw [accepts_pairStar_cons]
    simp [hc, pairScan, ih]
  | case4 c d t hc ih =>
    rw [accepts_pairStar_cons]
    simp [hc, pairScan, ih]

theorem accepts_expr_content (s : List Char) : accepts expr_content s = pairScan '%' '}' s :=
  accepts_pairStar '%' '}' s

theorem accepts_text (s : List Char) : accepts text s = pairScan '{' '%' s :=
  accepts_pairStar '{' '%' s

/-! ## Longest match -/

theorem longest_le (r : Rx) (s : List Char) (n : Nat) (h : longest r s = some n) :
    n ≤ s.length := by
  induction s generalizing r n with
  | nil =>
    simp only [longest] at h
    split at h <;> simp_all
  | cons c cs ih =>
    simp only [longest] at h
    split at h
    · rename_i k hk
      have := ih _ _ hk
      simp at h; subst h; simpa using this
    · split at h
      · simp at h; omega
      · simp at h

/-- What the longest match is, in terms of the prefixes that are accepted. -/
theorem longest_spec (r : Rx) (s : List Char) :
    match longest r s with
    | some n => accepts r (s.take n) = true ∧
        ∀ m, n < m → m ≤ s.length → accepts r (s.take m) = false
    | none => ∀ m, m ≤ s.length → accepts r (s.take m) = false := by
  induction s generalizing r with
  | nil =>
    by_cases h : nullable r = true
    · simp [longest, h, accepts]
      intro m hm hm0; omega
    · simp [longest, h, accepts]
  | cons c cs ih =>
    have ih' := ih (deriv c r)
    simp only [longest]
    cases hl : longest (deriv c r) cs with
    | some k =>
      rw [hl] at ih'
      simp only [List.take_succ_cons, accepts]
      refine ⟨ih'.1, ?_⟩
      intro m hm hm'
      cases m with
      | zero => omega
      | succ j =>
        simp only [List.take_succ_cons, accepts]
        exact ih'.2 j (by omega) (by simpa using hm')
    | none =>
      rw [hl] at ih'
      have hpos : ∀ m, 0 < m → m ≤ (c :: cs).length → accepts r ((c :: cs).take m) = false := by
        intro m hm hm'
        cases m with
        | zero => omega
        | succ j =>
          simp only [List.take_succ_cons, accepts]
          exact ih' j (by simpa using hm')
      by_cases h : nullable r = true
      · simp only [h, if_true]
        exact ⟨by simp [accepts, h], hpos⟩
      · simp only [h]
        intro m hm
        cases m with
        | zero => simpa [accepts] using h
        | succ j => exact hpos _ (by omega) hm

theorem longest_eq_some (r : Rx) (s : List Char) (n : Nat) (hn : n ≤ s.length)
    (hacc : accepts r (s.take n) = true)
    (hmax : ∀ m, n < m → m ≤ s.length → accepts r (s.take m) = false) :
    longest r s = some n := by
  have hs := longest_spec r s
  cases hl : longest r s with
  | none =>
    rw [hl] at hs
    have := hs n hn
    simp [hacc] at this
  | some k =>
    rw [hl] at hs
    have hk := longest_le r s k hl
    rcases Nat.lt_trichotomy k n with h | h | h
    · have := hs.2 n h hn
      simp [hacc] at this
    · rw [h]
    · have := hmax k h hk
      simp [hs.1] at this

theorem longest_eq_none (r : Rx) (s : List Char)
    (h : ∀ m, m ≤ s.length → accepts r (s.take m) = false) : longest r s = none := by
  have hs := longest_spec r s
  cases hl : longest r s with
  | none => rfl
  | some k =>
    rw [hl] at hs
    have := h k (longest_le r s k hl)
    simp [hs.1] at this

theorem longest_accepts (r : Rx) (s : List Char) (n : Nat) (h : longest r s = some n) :
    accepts r (s.take n) = true := by
  have hs := longest_spec r s
  rw [h] at hs
  exact hs.1

/-! ## Lexing the delimiters and the patterns -/

theorem longest_literal (a b : Char) (s : List Char) :
    longest (.seq (isChar a) (isChar b)) s = if s.take 2 = [a, b] then some 2 else none := by
  split
  · rename_i h
    have hlen : 2 ≤ s.length := by
      have := congrArg List.length h
      simp only [List.length_take, List.length_cons, List.length_nil] at this
      omega
    apply longest_eq_some _ _ _ hlen
    · rw [accepts_literal, h]; simp
    · intro m hm hle
      rw [accepts_literal]
      simp only [decide_eq_false_iff_not]
      intro e
      have := congrArg List.length e
      simp only [List.length_take, List.length_cons, List.length_nil] at this
      omega
  · rename_i h
    apply longest_eq_none
    intro m hle
    rw [accepts_literal]
    simp only [decide_eq_false_iff_not]
    intro e
    have hl := congrArg List.length e
    simp only [List.length_take, List.length_cons, List.length_nil] at hl
    have hm : m = 2 := by omega
    subst hm
    exact h e

theorem pairScan_cons_ne (a b c : Char) (s : List Char) (h : c ≠ a) :
    pairScan a b (c :: s) = pairScan a b s := by
  cases s with
  | nil => simp [pairScan, h]
  | cons d t => simp [pairScan, h]

theorem pairScan_append_of_not_mem (a b : Char) (c u : List Char) (h : a ∉ c) :
    pairScan a b (c ++ u) = pairScan a b u := by
  induction c with
  | nil => rfl
  | cons x xs ih =>
    simp only [List.mem_cons, not_or] at h
    rw [List.cons_append, pairScan_cons_ne _ _ _ _ (Ne.symm h.1), ih h.2]

theorem pairScan_of_not_mem (a b : Char) (c : List Char) (h : a ∉ c) :
    pairScan a b c = true := by
  have := pairScan_append_of_not_mem a b c [] h
  simpa [pairScan] using this

/-- At an opening delimiter the `text` pattern matches only the empty string. -/
theorem longest_text_at_open (c : List Char) : longest text ('{' :: '%' :: c) = some 0 := by
  apply longest_eq_some _ _ _ (Nat.zero_le _)
  · rfl
  · intro m hm _
    rw [accepts_text]
    match m, hm with
    | 1, _ => simp [pairScan]
    | (j + 2), _ => simp [pairScan]

theorem longest_content_before_close (c rest : List Char) (h : '%' ∉ c) :
    longest expr_content (c ++ '%' :: '}' :: rest) = some c.length := by
  apply longest_eq_some _ _ _ (by simp)
  · rw [accepts_expr_content, List.take_left]
    exact pairScan_of_not_mem _ _ _ h
  · intro m hm _
    rw [accepts_expr_content]
    obtain ⟨j, rfl⟩ : ∃ j, m = c.length + (j + 1) := ⟨m - c.length - 1, by omega⟩
    rw [List.take_append, pairScan_append_of_not_mem _ _ _ _ h, List.take_succ_cons]
    cases j with
    | zero => simp [pairScan]
    | succ i => simp [pairScan]

/-! ## Separators -/

theorem accepts_separated_nil (r : Rx) : accepts (separated r) [] = accepts r [] := by
  simp [separated, accepts, nullable]

/-- A terminal behind separators: either the terminal matches here, or a white
space character is read first. -/
theorem accepts_separated_cons (r : Rx) (c : Char) (s : List Char) :
    accepts (separated r) (c :: s) =
      (accepts r (c :: s) || (isSpace c && accepts (separated r) s)) := by
  have hstep : accepts (separated r) (c :: s) =
      accepts (.alt (.seq (.seq (deriv c extras) (.star extras)) r) (deriv c r)) s := rfl
  rw [hstep, accepts_alt]
  have hr : accepts (deriv c r) s = accepts r (c :: s) := rfl
  rw [hr, Bool.or_comm]
  congr 1
  by_cases hc : isSpace c = true
  · have h1 : deriv c extras = .eps := by simp [deriv, extras, hc]
    rw [h1, accepts_seq_congr _ (.star extras) _ (fun t => accepts_seq_eps _ t)]
    simp [hc, separated]
  · have h1 : deriv c extras = .fail := by simp [deriv, extras, hc]
    rw [h1, accepts_seq_congr _ .fail _ (fun t => by rw [accepts_seq_fail, accepts_fail]),
      accepts_seq_fail]
    simp [hc]

/-- Separators change nothing for a pattern `([^a]|[a][^b])*` when `a` is not
white space: the pattern reads white space itself. -/
theorem accepts_separated_pairStar (a b : Char) (ha : isSpace a = false) (s : List Char) :
    accepts (separated (.star (.alt (notChar a) (.seq (isChar a) (notChar b))))) s =
      pairScan a b s := by
  induction s with
  | nil => rw [accepts_separated_nil, accepts_pairStar]
  | cons c t ih =>
    rw [accepts_separated_cons, ih, accepts_pairStar]
    by_cases hc : isSpace c = true
    · have hne : c ≠ a := by
        intro e; rw [e, ha] at hc; cases hc
      simp [hc, pairScan_cons_ne _ _ _ _ hne]
    · simp [hc]

/-- A two-character literal behind separators matches white space followed by
the literal. -/
theorem accepts_separated_literal_cons (a b c : Char) (ha : isSpace a = false) (t : List Char) :
    accepts (separated (.seq (isChar a) (isChar b))) (c :: t) =
      if isSpace c then accepts (separated (.seq (isChar a) (isChar b))) t
      else accepts (.seq (isChar a) (isChar b)) (c :: t) := by
  rw [accepts_separated_cons]
  by_cases hc : isSpace c = true
  · have hne : c ≠ a := by
      intro e; rw [e, ha] at hc; cases hc
    simp [hc, accepts_literal, hne]
  · simp [hc]

theorem longest_congr (r r' : Rx) (h : ∀ t, accepts r t = accepts r' t) (s : List Char) :
    longest r s = longest r' s := by
  have hs := longest_spec r' s
  cases hl : longest r' s with
  | none =>
    rw [hl] at hs
    exact longest_eq_none _ _ (fun m hm => by rw [h]; exact hs m hm)
  | some n =>
    rw [hl] at hs
    exact longest_eq_some _ _ _ (longest_le _ _ _ hl) (by rw [h]; exact hs.1)
      (fun m hm hle => by rw [h]; exact hs.2 m hm hle)

/-- The longest match after reading one character. -/
theorem longest_cons (r r' : Rx) (c : Char) (s : List Char)
    (h : ∀ t, accepts r (c :: t) = accepts r' t) :
    longest r (c :: s) =
      match longest r' s with
      | some n => some (n + 1)
      | none => if nullable r then some 0 else none := by
  have e : longest (deriv c r) s = longest r' s := longest_congr _ _ (fun t => h t) s
  simp only [longest, e]

theorem longest_separated_text (s : List Char) :
    longest (separated text) s = longest text s :=
  longest_congr _ _ (fun t => by
    rw [accepts_text]; exact accepts_separated_pairStar '{' '%' (by decide) t) s

theorem longest_separated_content (s : List Char) :
    longest (separated expr_content) s = longest expr_content s :=
  longest_congr _ _ (fun t => by
    rw [accepts_expr_content]; exact accepts_separated_pairStar '%' '}' (by decide) t) s

/-- A two-character literal behind separators: the leading white space is
read, then the literal. -/
theorem longest_separated_literal (a b : Char) (ha : isSpace a = false) (s : List Char) :
    longest (separated (.seq (isChar a) (isChar b))) s =
      if (s.dropWhile isSpace).take 2 = [a, b] then some ((s.takeWhile isSpace).length + 2)
      else none := by
  induction s with
  | nil => simp [longest, separated, nullable, isChar]
  | cons c t ih =>
    by_cases hc : isSpace c = true
    · rw [longest_cons _ (separated (.seq (isChar a) (isChar b))) c t (fun u => by
        rw [accepts_separated_literal_cons _ _ _ ha]; simp [hc]), ih]
      simp only [List.dropWhile_cons, List.takeWhile_cons, hc, if_true, List.length_cons]
      by_cases hp : List.take 2 (List.dropWhile isSpace t) = [a, b] <;>
        simp [hp, separated, nullable, isChar]
    · have hl := longest_cons (separated (.seq (isChar a) (isChar b)))
        (deriv c (.seq (isChar a) (isChar b))) c t (fun u => by
          rw [accepts_separated_literal_cons _ _ _ ha]; simp [hc, accepts])
      have hn : nullable (separated (.seq (isChar a) (isChar b))) = false := by
        simp [separated, nullable, isChar]
      have hl2 : longest (.seq (isChar a) (isChar b)) (c :: t) =
          match longest (deriv c (.seq (isChar a) (isChar b))) t with
          | some n => some (n + 1)
          | none => none := by
        simp [longest, nullable, isChar]
      rw [hn] at hl
      simp only [Bool.false_eq_true, if_false] at hl
      rw [hl, ← hl2, longest_literal]
      simp [List.dropWhile_cons, List.takeWhile_cons, hc]

/-! ## The lexer -/

theorem lex_spec (valid : List Tok) (s : List Char) (t : Tok) (n : Nat)
    (h : lex valid s = some (t, n)) :
    t ∈ valid ∧ longest (separated (tokenRx t)) s = some n := by
  induction valid generalizing t n with
  | nil => simp [lex] at h
  | cons u us ih =>
    simp only [lex] at h
    split at h
    · rename_i k v m hk hv
      split at h
      · simp only [Option.some.injEq, Prod.mk.injEq] at h
        obtain ⟨rfl, rfl⟩ := h
        have hrec := ih _ _ hv
        exact ⟨List.mem_cons_of_mem _ hrec.1, hrec.2⟩
      · simp only [Option.some.injEq, Prod.mk.injEq] at h
        obtain ⟨rfl, rfl⟩ := h
        exact ⟨List.mem_cons_self _ _, hk⟩
    · rename_i k hk hv
      simp only [Option.some.injEq, Prod.mk.injEq] at h
      obtain ⟨rfl, rfl⟩ := h
      exact ⟨List.mem_cons_self _ _, hk⟩
    · have hrec := ih t n h
      exact ⟨List.mem_cons_of_mem _ hrec.1, hrec.2⟩

theorem lex_le (valid : List Tok) (s : List Char) (t : Tok) (n : Nat)
    (h : lex valid s = some (t, n)) : n ≤ s.length :=
  longest_le _ _ _ (lex_spec valid s t n h).2

/-- Before a region, at a `{%`: the opening delimiter is the token. -/
theorem lex_top_at_open (c : List Char) :
    lex [.dOpen, .text] ('{' :: '%' :: c) = some (.dOpen, 2) := by
  have h1 : longest (separated delimOpen) ('{' :: '%' :: c) = some 2 := by
    unfold delimOpen
    rw [longest_separated_literal _ _ (by decide)]
    simp [List.dropWhile_cons, List.takeWhile_cons, isSpace]
  have h2 : longest (separated text) ('{' :: '%' :: c) = some 0 := by
    rw [longest_separated_text, longest_text_at_open]
  simp [lex, tokenRx, h1, h2]

/-- A closing delimiter is found only where a `%}` is. -/
theorem infix_of_longest_close (s : List Char) (m : Nat)
    (h : longest (separated delimClose) s = some m) : ['%', '}'] <:+: s := by
  unfold delimClose at h
  rw [longest_separated_literal _ _ (by decide)] at h
  split at h
  · rename_i e
    refine ⟨s.takeWhile isSpace, (s.dropWhile isSpace).drop 2, ?_⟩
    rw [← e, List.append_assoc, List.take_append_drop, List.takeWhile_append_dropWhile]
  · simp at h

/-- The closing delimiter behind content without `%`: it is found from the
start exactly when the content is white space only. -/
theorem longest_close_after_plain (c : List Char) (h : '%' ∉ c) :
    longest (separated delimClose) (c ++ ['%', '}']) =
      if c.all isSpace then some (c.length + 2) else none := by
  unfold delimClose
  rw [longest_separated_literal _ _ (by decide)]
  induction c with
  | nil => simp [List.dropWhile_cons, List.takeWhile_cons, isSpace]
  | cons x xs ih =>
    simp only [List.mem_cons, not_or] at h
    by_cases hx : isSpace x = true
    · have := ih h.2
      simp only [List.cons_append, List.dropWhile_cons, List.takeWhile_cons, hx, if_true,
        List.length_cons, List.all_cons, Bool.true_and]
      by_cases hall : xs.all isSpace = true
      · simp only [hall, if_true] at this ⊢
        split at this
        · rename_i e
          simp only [e, if_true]
          simp only [Option.some.injEq] at this
          simp only [Option.some.injEq]
          omega
        · simp at this
      · simp only [hall, Bool.false_eq_true, if_false] at this ⊢
        split at this
        · simp at this
        · rename_i e
          simp [e]
    · have hx' : isSpace x = false := by simpa using hx
      have hne : ¬ (x = '%') := fun e => h.1 e.symm
      cases xs with
      | nil => simp [List.dropWhile_cons, hx', hne]
      | cons y ys => simp [List.dropWhile_cons, hx', hne]

theorem lex_close : lex [.dClose] ['%', '}'] = some (.dClose, 2) := by decide

/-- Right after `{%`, before content without `%` that is closed by `%}`. -/
theorem lex_in_expr (c : List Char) (h : '%' ∉ c) :
    lex [.dClose, .content] (c ++ ['%', '}']) =
      if c.all isSpace then some (.dClose, c.length + 2) else some (.content, c.length) := by
  have h1 := longest_close_after_plain c h
  have h2 : longest (separated expr_content) (c ++ ['%', '}']) = some c.length := by
    rw [longest_separated_content, longest_content_before_close c [] h]
  by_cases hall : c.all isSpace = true
  · simp only [hall, if_true] at h1 ⊢
    simp [lex, tokenRx, h1, h2]
  · simp only [hall, Bool.false_eq_true, if_false] at h1 ⊢
    simp [lex, tokenRx, h1, h2]

/-! ## Byte offsets -/

theorem byteLen_append (s t : List Char) : byteLen (s ++ t) = byteLen s + byteLen t := by
  induction s with
  | nil => simp [byteLen]
  | cons c cs ih => simp [byteLen, ih, Nat.add_assoc]

theorem byteLen_take_add_drop (n : Nat) (s : List Char) :
    byteLen (s.take n) + byteLen (s.drop n) = byteLen s := by
  rw [← byteLen_append, List.take_append_drop]

theorem byteLen_take_add (n k : Nat) (s : List Char) :
    byteLen (s.take (n + k)) = byteLen (s.take n) + byteLen ((s.drop n).take k) := by
  rw [List.take_add, byteLen_append]

theorem byteLen_close : byteLen ['%', '}'] = 2 := by decide

/-! ## The parser -/

/-- The `expr` rule on content without `%` followed by `%}`. -/
theorem expr_of_plain_content (start pos : Nat) (c : List Char) (h : '%' ∉ c) :
    expr start pos (c ++ ['%', '}']) =
      some (.expr start (pos + (byteLen c + 2))
        (if c.all isSpace then none else some (pos, pos + byteLen c)), c.length + 2) := by
  have ht : List.take (c.length + 2) (c ++ ['%', '}']) = c ++ ['%', '}'] := by
    apply List.take_of_length_le; simp
  by_cases hall : c.all isSpace = true
  · simp only [expr, lex_in_expr c h, hall, if_true, ht, byteLen_append, byteLen_close]
  · have hd : List.drop c.length (c ++ ['%', '}']) = ['%', '}'] := by simp
    have htc : List.take c.length (c ++ ['%', '}']) = c := by simp
    simp only [expr, lex_in_expr c h, hall, Bool.false_eq_true, if_false, hd, lex_close, ht,
      htc, byteLen_append, byteLen_close]

/-- Without a `%}` in the input the `expr` rule cannot be completed. -/
theorem expr_none_of_no_close (start pos : Nat) (s : List Char)
    (h : ¬ ['%', '}'] <:+: s) : expr start pos s = none := by
  have key : ∀ n m, longest (separated delimClose) (s.drop n) = some m → False := by
    intro n m hm
    exact h ((infix_of_longest_close _ _ hm).trans (List.drop_suffix n s).isInfix)
  unfold expr
  split
  · rename_i n hn
    exact (key 0 n (lex_spec _ _ _ _ hn).2).elim
  · rename_i n hn
    split
    · rename_i m hm
      exact (key n m (lex_spec _ _ _ _ hm).2).elim
    · rfl
  · rfl

theorem source_file_nil (fuel pos : Nat) (h : 0 < fuel) : source_file fuel pos [] = .tree [] := by
  cases fuel with
  | zero => omega
  | succ k => rfl

/-- One round of `source_file` at an opening delimiter. -/
theorem source_file_at_open (fuel pos : Nat) (c : List Char) :
    source_file (fuel + 1) pos ('{' :: '%' :: c) =
      match expr pos (pos + 2) c with
      | some (node, k) =>
        (source_file fuel (pos + (2 + byteLen (c.take k))) (c.drop k)).cons node
      | none => .tree [.error pos (pos + (2 + byteLen c))] := by
  have hd : ∀ k, List.drop (2 + k) ('{' :: '%' :: c) = List.drop k c := by
    intro k; rw [Nat.add_comm]; rfl
  have h1 : Char.utf8Size '{' = 1 := by decide
  have h3 : Char.utf8Size '%' = 1 := by decide
  have ht : ∀ k, byteLen (List.take (2 + k) ('{' :: '%' :: c)) = 2 + byteLen (c.take k) := by
    intro k
    rw [Nat.add_comm]
    simp only [List.take_succ_cons, byteLen, h1, h3]
    omega
  have h2 : byteLen (List.take 2 ('{' :: '%' :: c)) = 2 := rfl
  have hb : byteLen ('{' :: '%' :: c) = 2 + byteLen c := by
    simp only [byteLen, h1, h3]; omega
  rw [source_file]
  simp only [lex_top_at_open, List.drop_succ_cons, List.drop_zero, hd, ht, h2, hb]

theorem cons_eq_tree (n : Node) (o : Outcome) (ns : List Node)
    (h : o.cons n = .tree ns) : ∃ ms, o = .tree ms ∧ ns = n :: ms := by
  cases o with
  | tree ms =>
    simp only [Outcome.cons, Outcome.tree.injEq] at h
    exact ⟨ms, rfl, h.symm⟩
  | outOfFuel => simp [Outcome.cons] at h

theorem expr_spec (start pos : Nat) (s : List Char) (node : Node) (k : Nat)
    (hs : start ≤ pos) (h : expr start pos s = some (node, k)) :
    node.start = start ∧ node.stop = pos + byteLen (s.take k) ∧ start ≤ node.stop := by
  unfold expr at h
  split at h
  · rename_i n hn
    simp only [Option.some.injEq, Prod.mk.injEq] at h
    obtain ⟨rfl, rfl⟩ := h
    exact ⟨rfl, rfl, by simp only [Node.stop]; omega⟩
  · rename_i n hn
    split at h
    · rename_i m hm
      simp only [Option.some.injEq, Prod.mk.injEq] at h
      obtain ⟨rfl, rfl⟩ := h
      exact ⟨rfl, rfl, by simp only [Node.stop]; omega⟩
    · simp at h
  · simp at h

/-- Whenever the parser returns, the nodes of its tree tile the document. -/
theorem source_file_covers (fuel pos : Nat) (s : List Char) (ns : List Node)
    (h : source_file fuel pos s = .tree ns) : Covers pos ns (pos + byteLen s) := by
  induction fuel generalizing pos s ns with
  | zero => simp [source_file] at h
  | succ fuel ih =>
    cases s with
    | nil =>
      simp only [source_file, Outcome.tree.injEq] at h
      subst h
      simp [Covers, byteLen]
    | cons c cs =>
      have herr : Covers pos [.error pos (pos + byteLen (c :: cs))] (pos + byteLen (c :: cs)) :=
        ⟨rfl, by simp only [Node.start, Node.stop]; omega, rfl⟩
      simp only [source_file] at h
      split at h
      · rename_i n hn
        obtain ⟨ms, hms, rfl⟩ := cons_eq_tree _ _ _ h
        have hc := ih _ _ _ hms
        rw [Nat.add_assoc, byteLen_take_add_drop] at hc
        exact ⟨rfl, by simp only [Node.start, Node.stop]; omega, hc⟩
      · rename_i n hn
        split at h
        · rename_i node k hk
          obtain ⟨ms, hms, rfl⟩ := cons_eq_tree _ _ _ h
          have hx := expr_spec _ _ _ _ _ (Nat.le_add_right _ _) hk
          have hc := ih _ _ _ hms
          rw [Nat.add_assoc, byteLen_take_add_drop] at hc
          refine ⟨hx.1, by rw [hx.1]; exact hx.2.2, ?_⟩
          rw [hx.2.1, Nat.add_assoc, ← byteLen_take_add]
          exact hc
        · simp only [Outcome.tree.injEq] at h
          subst h
          exact herr
      · simp only [Outcome.tree.injEq] at h
        subst h
        exact herr

/-- More fuel does not change a tree that was returned. -/
theorem source_file_mono (fuel pos : Nat) (s : List Char) (ns : List Node)
    (h : source_file fuel pos s = .tree ns) : source_file (fuel + 1) pos s = .tree ns := by
  induction fuel generalizing pos s ns with
  | zero => simp [source_file] at h
  | succ fuel ih =>
    cases s with
    | nil =>
      simp only [source_file] at h ⊢
      exact h
    | cons c cs =>
      rw [source_file] at h
      rw [source_file]
      split at h
      · rename_i n hn
        obtain ⟨ms, hms, rfl⟩ := cons_eq_tree _ _ _ h
        simp only [ih _ _ _ hms, Outcome.cons]
      · rename_i n hn
        split at h
        · rename_i node k hk
          obtain ⟨ms, hms, rfl⟩ := cons_eq_tree _ _ _ h
          simp only [ih _ _ _ hms, Outcome.cons]
        · exact h
      · exact h

/-- An empty `text` token is shifted for ever: no amount of fuel is enough. -/
theorem source_file_stuck (c : Char) (cs : List Char)
    (h : lex [.dOpen, .text] (c :: cs) = some (.text, 0)) (fuel pos : Nat) :
    source_file fuel pos (c :: cs) = .outOfFuel := by
  induction fuel with
  | zero => rfl
  | succ fuel ih =>
    rw [source_file]
    simp only [h, List.take_zero, List.drop_zero, byteLen, Nat.add_zero, ih, Outcome.cons]

theorem lex_lone_brace : lex [.dOpen, .text] ['{'] = some (.text, 0) := by decide

theorem cons_eq_outOfFuel (n : Node) (o : Outcome) (h : o.cons n = .outOfFuel) :
    o = .outOfFuel := by
  cases o with
  | tree ms => simp [Outcome.cons] at h
  | outOfFuel => rfl

theorem lex_open_pos (s : List Char) (n : Nat)
    (h : lex [.dOpen, .text] s = some (.dOpen, n)) : 0 < n := by
  have hl := (lex_spec _ _ _ _ h).2
  simp only [tokenRx] at hl
  unfold delimOpen at hl
  rw [longest_separated_literal _ _ (by decide)] at hl
  split at hl
  · simp only [Option.some.injEq] at hl
    omega
  · simp at hl

/-- When the fuel given by `parse` runs out, every amount of fuel runs out: the
parser does not return. -/
theorem source_file_diverges (fuel pos : Nat) (s : List Char) (hlen : s.length < fuel)
    (h : source_file fuel pos s = .outOfFuel) :
    ∀ more, source_file more pos s = .outOfFuel := by
  induction fuel generalizing pos s with
  | zero => omega
  | succ fuel ih =>
    cases s with
    | nil => simp [source_file] at h
    | cons c cs =>
      rw [source_file] at h
      split at h
      · rename_i n hn
        have hin := cons_eq_outOfFuel _ _ h
        cases n with
        | zero => exact fun more => source_file_stuck c cs hn more pos
        | succ j =>
          have hrec := ih _ _ (by
            simp only [List.length_drop, List.length_cons] at hlen ⊢; omega) hin
          intro more
          cases more with
          | zero => rfl
          | succ f =>
            rw [source_file]
            simp only [hn, hrec f, Outcome.cons]
      · rename_i n hn
        have hpos := lex_open_pos _ _ hn
        split at h
        · rename_i node k hk
          have hin := cons_eq_outOfFuel _ _ h
          have hrec := ih _ _ (by
            simp only [List.length_drop, List.length_cons] at hlen ⊢; omega) hin
          intro more
          cases more with
          | zero => rfl
          | succ f =>
            rw [source_file]
            simp only [hn, hk, hrec f, Outcome.cons]
        · cases h
      · cases h

theorem parse_diverges (doc : List Char) (h : parse doc = .outOfFuel) :
    ∀ fuel, source_file fuel 0 doc = .outOfFuel :=
  source_file_diverges _ _ _ (Nat.lt_succ_self _) h

/-- Whenever the parser returns, its regions tile the whole document: the first
starts at byte 0, each ends where the next starts, the last ends at the end. -/
theorem parse_covers (doc : List Char) (ns : List Node) (h : parse doc = .tree ns) :
    Covers 0 ns (byteLen doc) := by
  have := source_file_covers _ _ _ _ h
  simpa using this

/-! ## Runs of `%` and the content pattern -/

/-- The pair scan across a run of `k` characters `%` that cannot be extended
to the right. -/
theorem pairScan_run (k : Nat) (post : List Char) (hpost : post.head? ≠ some '%') :
    pairScan '%' '}' (List.replicate k '%' ++ post) =
      if k % 2 = 0 then pairScan '%' '}' post
      else (match post with
        | [] => false
        | d :: _ => d != '}' && pairScan '%' '}' post) := by
  induction k using Nat.strong_induction_on with
  | _ k ih =>
    match k with
    | 0 => simp
    | 1 =>
      cases post with
      | nil => simp [pairScan]
      | cons d rest =>
        have hd : d ≠ '%' := by
          intro e; apply hpost; simp [e]
        simp [List.replicate, pairScan, pairScan_cons_ne _ _ _ _ hd]
    | j + 2 =>
      have e : List.replicate (j + 2) '%' ++ post =
          '%' :: '%' :: (List.replicate j '%' ++ post) := rfl
      rw [e]
      simp only [pairScan]
      rw [ih j (by omega)]
      have hj : (j + 2) % 2 = j % 2 := by omega
      rw [hj]
      simp

/-- Once the scan has accepted a prefix that does not end in `%`, what follows
is scanned from the start state. -/
theorem pairScan_resume (pre t : List Char) (hpre : pre.getLast? ≠ some '%')
    (h : pairScan '%' '}' (pre ++ t) = true) : pairScan '%' '}' t = true := by
  induction pre using pairScan.induct '%' '}' with
  | case1 => simpa using h
  | case2 c =>
    have hc : c ≠ '%' := by
      intro e; apply hpre; simp [e]
    simpa [pairScan_cons_ne _ _ _ _ hc] using h
  | case3 c d u hc ih =>
    have hu : u.getLast? ≠ some '%' := by
      cases u with
      | nil => simp
      | cons x xs => simpa [List.getLast?_cons_cons] using hpre
    apply ih hu
    simp only [List.cons_append, pairScan, hc, if_true, Bool.and_eq_true] at h
    exact h.2
  | case4 c d u hc ih =>
    have hu : (d :: u).getLast? ≠ some '%' := by
      simpa [List.getLast?_cons_cons] using hpre
    apply ih hu
    simpa [List.cons_append, pairScan, hc] using h

/-- Every string splits into its leading run of `%` and the rest. -/
theorem leading_run (s : List Char) :
    ∃ k post, s = List.replicate k '%' ++ post ∧ post.head? ≠ some '%' := by
  induction s with
  | nil => exact ⟨0, [], rfl, by simp⟩
  | cons c t ih =>
    by_cases hc : c = '%'
    · obtain ⟨k, post, hk, hp⟩ := ih
      exact ⟨k + 1, post, by rw [hc, hk]; rfl, hp⟩
    · exact ⟨0, c :: t, rfl, by simpa using hc⟩

theorem pairScan_of_oddRunsGuarded (s : List Char) (h : OddRunsGuarded s) :
    pairScan '%' '}' s = true := by
  generalize hn : s.length = n
  induction n using Nat.strong_induction_on generalizing s with
  | _ n ih =>
    obtain ⟨k, post, hs, hpost⟩ := leading_run s
    have hguard : OddRunsGuarded post := by
      intro pre j post2 hrun hodd
      obtain ⟨e, hj, hpre, hpost2⟩ := hrun
      cases k with
      | zero =>
        apply h pre j post2 _ hodd
        exact ⟨by rw [hs, e]; simp, hj, hpre, hpost2⟩
      | succ k0 =>
        have hne : pre ≠ [] := by
          intro e0
          apply hpost
          rw [e, e0]
          cases j with
          | zero => omega
          | succ j0 => simp [List.replicate]
        apply h (List.replicate (k0 + 1) '%' ++ pre) j post2 _ hodd
        refine ⟨by rw [hs, e]; simp [List.append_assoc], hj, ?_, hpost2⟩
        rw [List.getLast?_append_of_ne_nil _ hne]
        exact hpre
    cases k with
    | zero =>
      cases post with
      | nil => simp [hs, pairScan]
      | cons d rest =>
        have hd : d ≠ '%' := by
          intro e; apply hpost; simp [e]
        have hrest : OddRunsGuarded rest := by
          intro pre j post2 hrun hodd
          obtain ⟨e, hj, hpre, hpost2⟩ := hrun
          apply hguard (d :: pre) j post2 _ hodd
          refine ⟨by rw [e]; simp, hj, ?_, hpost2⟩
          cases pre with
          | nil => simpa using hd
          | cons x xs => simpa [List.getLast?_cons_cons] using hpre
        have hlen : rest.length < n := by
          rw [← hn, hs]; simp
        rw [hs]
        simp only [List.replicate, List.nil_append]
        rw [pairScan_cons_ne _ _ _ _ hd]
        exact ih _ hlen rest hrest rfl
    | succ k0 =>
      have hlen : post.length < n := by
        rw [← hn, hs]; simp
      have hp := ih _ hlen post hguard rfl
      rw [hs, pairScan_run _ _ hpost]
      split
      · exact hp
      · rename_i hodd
        have hrun : MaxRun s [] (k0 + 1) post := ⟨by rw [hs]; simp, by omega, by simp, hpost⟩
        obtain ⟨d, rest, e, hd⟩ := h [] (k0 + 1) post hrun (by omega)
        subst e
        simp [hd, hp]

theorem oddRunsGuarded_of_pairScan (s : List Char) (h : pairScan '%' '}' s = true) :
    OddRunsGuarded s := by
  intro pre k post hrun hodd
  obtain ⟨e, _, hpre, hpost⟩ := hrun
  rw [e, List.append_assoc] at h
  have h2 := pairScan_resume pre _ hpre h
  rw [pairScan_run _ _ hpost] at h2
  have hk : ¬ k % 2 = 0 := by omega
  simp only [hk, if_false] at h2
  cases post with
  | nil => simp at h2
  | cons d rest =>
    simp only [Bool.and_eq_true, bne_iff_ne] at h2
    exact ⟨d, rest, rfl, h2.1⟩

/-! ## The highlight.js mode on the documents discussed below -/

/-- The highlight.js mode also ends the expression at the `%}` inside the string. -/
theorem hljs_string_literal :
    hljsExpression "\x7b% let s = \"%\x7d\"; %\x7d".toList = some (0, 14) := by decide

/-- The highlight.js mode closes `{%%%}` at its first `%}`. -/
theorem hljs_percent_content : hljsExpression "\x7b%%%\x7d".toList = some (0, 5) := by decide

/-- The highlight.js mode never runs past the first `%}`. -/
theorem hljs_stops_at_first_close : hljsExpression "\x7b%%%\x7d%\x7d".toList = some (0, 5) := by decide

/-- The highlight.js mode begins an expression at a `{%` that follows a `{`. -/
theorem hljs_open_after_brace : hljsExpression "\x7b\x7b% x %\x7d".toList = some (1, 8) := by decide

/-- For the highlight.js mode a lone `{` is plain markup: no expression begins. -/
theorem hljs_lone_brace : hljsExpression "\x7b".toList = none := by decide

/-! ## The claims -/

/-- C1 (the code at the failing input): the grammar closes the expression of
`{% let s = "%}"; %}` at the `%}` inside the string literal; the parse is an
Expression region over the first 14 bytes followed by a Text region, not one
Expression region over the whole document. -/
theorem C1_string_literal_closes_expression :
    parse "\x7b% let s = \"%\x7d\"; %\x7d".toList =
      .tree [.expr 0 14 (some (2, 12)), .text 14 19] := by decide

/-- C2 (the code at the failing input): on the document `{%%}{`, which ends in
a lone `{`, the parser does not return, whatever the fuel: after the Expression
region it shifts an empty `text` token for ever. No sequence of regions is
produced. -/
theorem C2_trailing_brace_never_returns (fuel : Nat) :
    source_file fuel 0 "\x7b%%\x7d\x7b".toList = .outOfFuel := by
  cases fuel with
  | zero => rfl
  | succ f =>
    have hx : expr 0 (0 + 2) ['%', '}', '{'] = some (.expr 0 4 none, 2) := by decide
    have e : "\x7b%%\x7d\x7b".toList = '{' :: '%' :: ['%', '}', '{'] := by decide
    rw [e, source_file_at_open, hx]
    simp only [List.drop_succ_cons, List.drop_zero,
      source_file_stuck '{' [] lex_lone_brace, Outcome.cons]

/-- C4 (counterexample): `{% foo(bar { %}` parses as one terminated Expression
region over the whole document; its final `%}` is the closing delimiter. -/
theorem C4_open_brace_is_terminated :
    parse "\x7b% foo(bar \x7b %\x7d".toList = .tree [.expr 0 15 (some (2, 13))] := by decide

/-- C4 (amended): a document `{%` c in which no `%}` follows the `{%` is not
parsed as an Expression: it parses as one ERROR node from the `{%` to the end
of the document. The document `{% foo(bar { %}` is not of this kind, the grammar
tracks no brackets, and it parses as one Expression region over its 15 bytes. -/
theorem C4_unterminated_is_one_error_node (c : List Char) (h : ¬ ['%', '}'] <:+: c) :
    parse ('{' :: '%' :: c) = .tree [.error 0 (2 + byteLen c)] ∧
      parse "\x7b% foo(bar \x7b %\x7d".toList = .tree [.expr 0 15 (some (2, 13))] := by
  refine ⟨?_, by decide⟩
  have hx := expr_none_of_no_close 0 (0 + 2) c h
  simp only [parse, List.length_cons, source_file_at_open, hx, Nat.zero_add]

theorem C4_unterminated_is_one_error_node_witness :
    ¬ ['%', '}'] <:+: " foo(bar \x7b".toList ∧
      parse "\x7b% foo(bar \x7b".toList = .tree [.error 0 12] :=
  ⟨by decide, (C4_unterminated_is_one_error_node " foo(bar \x7b".toList (by decide)).1⟩

/-- C5 (the code at the failing input): on the documents `{` and `a{`, which
contain no `{%`, the parser does not return, whatever the fuel: the `text`
pattern needs a character after a `{`, so at the `{` the longest match is the
empty `text` token, shifted for ever. No Text region covers the document. -/
theorem C5_lone_brace_never_returns (fuel : Nat) :
    source_file fuel 0 "\x7b".toList = .outOfFuel ∧
      source_file fuel 0 "a\x7b".toList = .outOfFuel := by
  refine ⟨source_file_stuck '{' [] lex_lone_brace fuel 0, ?_⟩
  cases fuel with
  | zero => rfl
  | succ f =>
    have hl : lex [.dOpen, .text] ['a', '{'] = some (.text, 1) := by decide
    have e : "a\x7b".toList = ['a', '{'] := by decide
    rw [e, source_file]
    simp only [hl, List.drop_succ_cons, List.drop_zero,
      source_file_stuck '{' [] lex_lone_brace, Outcome.cons]

/-- C6 (counterexample): `{% %}` parses as one Expression region without a
content child: the blank is read as part of the closing `%}` token, so the
content recorded by the parse is not the blank between the delimiters. -/
theorem C6_blank_content_is_dropped :
    '%' ∉ " ".toList ∧ parse "\x7b% %\x7d".toList = .tree [.expr 0 5 none] := by decide

/-- C6 (amended): for every content `c` without `%`, the document `{%` c `%}`
parses as exactly one Expression region over the whole document, whatever
braces `c` contains; its content child is the range of `c` when `c` has a
character that is not white space, and is absent when `c` is empty or white
space only. -/
theorem C6_braces_do_not_split (c : List Char) (h : '%' ∉ c) :
    parse ('{' :: '%' :: (c ++ ['%', '}'])) =
      .tree [.expr 0 (byteLen c + 4)
        (if c.all isSpace then none else some (2, byteLen c + 2))] := by
  have hx := expr_of_plain_content 0 (0 + 2) c h
  have hd : List.drop (c.length + 2) (c ++ ['%', '}']) = [] := by simp
  simp only [parse, List.length_cons, source_file_at_open, hx, hd]
  rw [source_file_nil _ _ (by simp)]
  simp only [Outcome.cons, Outcome.tree.injEq, List.cons.injEq, Node.expr.injEq, and_true,
    true_and]
  refine ⟨by omega, ?_⟩
  split <;> simp [Nat.add_comm]

theorem C6_braces_do_not_split_witness :
    '%' ∉ " if x \x7b y \x7d ".toList ∧
      parse "\x7b% if x \x7b y \x7d %\x7d".toList = .tree [.expr 0 16 (some (2, 14))] :=
  ⟨by decide, C6_braces_do_not_split " if x \x7b y \x7d ".toList (by decide)⟩

/-- C7: `{%%}` parses as exactly one Expression region over the 4 bytes,
without a content child and without a Text region. -/
theorem C7_empty_expression : parse "\x7b%%\x7d".toList = .tree [.expr 0 4 none] := by decide

/-- C8 (the code at the failing input): `{{% x %}` parses as one Text region
over the whole document, so a Text region contains `{%`. -/
theorem C8_text_contains_open :
    parse "\x7b\x7b% x %\x7d".toList = .tree [.text 0 8] ∧
      findPair '{' '%' (("\x7b\x7b% x %\x7d".toList.drop 0).take (8 - 0)) = some 1 := by decide

/-- C9 (the code at the failing input): `{%%%}`, whose content is `%`, is not
parsed as an Expression region but as one ERROR node, and in `{%%%}%}` the
Expression region runs past the first `%}`. -/
theorem C9_percent_before_close :
    parse "\x7b%%%\x7d".toList = .tree [.error 0 5] ∧
      parse "\x7b%%%\x7d%\x7d".toList = .tree [.expr 0 7 (some (2, 5))] := by decide

/-- C10: the content pattern `/([^%]|[%][^}])*/` matches a string in full if
and only if every maximal run of `%` of odd length in it is immediately
followed by a character other than `}`. Consequently a string without `%`
matches, a string that ends in a maximal run of `%` of odd length does not
match, and `%%}` matches. -/
theorem C10_expr_content_language (s : List Char) :
    (accepts expr_content s = true ↔ OddRunsGuarded s) ∧
      ('%' ∉ s → accepts expr_content s = true) ∧
      (∀ pre k, s = pre ++ List.replicate k '%' → pre.getLast? ≠ some '%' → k % 2 = 1 →
        accepts expr_content s = false) ∧
      accepts expr_content "%%\x7d".toList = true := by
  have hiff : accepts expr_content s = true ↔ OddRunsGuarded s := by
    rw [accepts_expr_content]
    exact ⟨oddRunsGuarded_of_pairScan s, pairScan_of_oddRunsGuarded s⟩
  refine ⟨hiff, ?_, ?_, by decide⟩
  · intro h
    rw [accepts_expr_content]
    exact pairScan_of_not_mem _ _ _ h
  · intro pre k e hpre hodd
    cases hacc : accepts expr_content s with
    | false => rfl
    | true =>
      have hrun : MaxRun s pre k [] := ⟨by rw [e]; simp, by omega, hpre, by simp⟩
      obtain ⟨d, rest, hnil, _⟩ := hiff.mp hacc pre k [] hrun hodd
      cases hnil

end Stilts
